import Mathlib

/-!
Shallow embedding of `CAtransferEntropy.py`.

The repository's single source file defines five helper functions around an
external discrete transfer-entropy calculator (JIDT, reached through JPype):

* `createCA rule timesteps n` — evolve an elementary cellular automaton from a
  random binary initial row, time running down the matrix;
* `teCA ca k_history neighbor` — local transfer entropy of each column against
  its left or right neighbor column;
* `teCA_null ca k_history numTrials` — shuffle-based null test returning the
  per-position mean, standard deviation and maximum over trials;
* `teCA_Box ca k_history neighbor` — local transfer entropy of each column
  against every offset, a 3-D result;
* `greatestInfluence teBox` — per source town, how many destination rows chose
  it as the strongest influencer (fixed universe of 226 towns).

Modelling conventions:

* numpy arrays become lists: a 2-D array is a list of rows (`List (List Int)`),
  a 3-D array a list of matrices.  `a[t][c]` is `getD`-indexing with default 0,
  matching numpy's rectangular arrays on all in-range indices.
* the external calculator is an oracle parameter
  `calcTE : Nat → List Int → List Int → List ℚ` taking the history length and
  the source and destination sequences.  The code calls
  `teCalc.initialise()` and `addObservations` before every
  `computeLocalFromPreviousObservations`, so on each call the calculator's
  answer is a function of exactly these arguments; its `double[]` output is
  modelled as exact rationals.  The calls made to the calculator are recorded
  by explicit event traces (`CalcEvent`).
* numpy's random draws are oracle parameters as well: the initial CA row
  (`np.random.randint(0,2,size=n)`) is an explicit argument, and
  `np.random.shuffle` is a function `shuffle : Nat → Nat → List Int → List Int`
  of the trial index, the column index and the column contents, i.e. of the
  points where the sequential RNG is consumed.
* assigning a float array into a `dtype=int` numpy array C-casts every entry,
  which truncates toward zero; this is `truncQ`.
* Python errors (the unbound local `y` on an invalid `neighbor` argument)
  surface as `Option.none`.
-/

/-- Embedding of 1-D `np.roll v k`: element `c` of the result is
`v[(c - k) mod n]`, i.e. the vector rotated left by `(-k) mod n`. -/
def npRoll (v : List Int) (k : Int) : List Int :=
  v.rotate ((-k).emod v.length).toNat

/-- Column `c` of a matrix stored as a list of rows (`m[:, c]`). -/
def col (m : List (List Int)) (c : Nat) : List Int :=
  m.map (fun r => r.getD c 0)

/-- One pass of `createCA`'s inner loop (source lines 54-67): the next row is
obtained by looking the rule up on `(ln[i], ca_str[i], rn[i])` where
`ln = np.roll(ca_space, 1)` and `rn = np.roll(ca_space, -1)`.  The rule
dictionary on three-character binary strings is modelled as a function of the
three cell values. -/
def caStep (rule : Int → Int → Int → Int) (s : List Int) : List Int :=
  let ln := npRoll s 1
  let rn := npRoll s (-1)
  (List.range s.length).map (fun i => rule (ln.getD i 0) (s.getD i 0) (rn.getD i 0))

/-- Embedding of `createCA` (source lines 49-71): the list of rows of the CA
matrix, row 0 being the random initial row `np.random.randint(0,2,size=n)`
which is passed in explicitly as `s`. -/
def createCA (rule : Int → Int → Int → Int) : Nat → List Int → List (List Int)
  | 0, s => [s]
  | t + 1, s => s :: createCA rule t (caStep rule s)

/-- numpy's cast of a float into a `dtype=int` array truncates toward zero;
on an exact rational this is truncating division of numerator by denominator. -/
def truncQ (q : ℚ) : Int :=
  q.num.tdiv q.den

/-- Python's `str.upper()` on the ASCII neighbor flags handled here
(`String.toUpper` is extensionally the same on them but does not reduce in the
kernel): upper-case every lower-case ASCII letter. -/
def pyUpper (s : String) : String :=
  String.mk (s.data.map (fun c => if 'a' ≤ c ∧ c ≤ 'z' then Char.ofNat (c.toNat - 32) else c))

/-- The calls the Python code makes on the external calculator object. -/
inductive CalcEvent where
  | initialise : CalcEvent
  | addObservations (y x : List Int) : CalcEvent
  | computeLocal (y x : List Int) : CalcEvent
  deriving DecidableEq

/-- Whether an event is a `computeLocalFromPreviousObservations` call. -/
def CalcEvent.isCompute : CalcEvent → Bool
  | CalcEvent.computeLocal _ _ => true
  | _ => false

/-- The source series `y` used by `teCA` for destination column `c`
(source lines 124-130): column `c` of `ca` rolled by `±1` along axis 1;
`none` when the upper-cased neighbor is neither "L" nor "R", in which case the
Python local variable `y` is unbound. -/
def teCAy (neighb : String) (ca : List (List Int)) (c : Nat) : Option (List Int) :=
  if neighb = "L" then some (col (ca.map (fun r => npRoll r 1)) c)
  else if neighb = "R" then some (col (ca.map (fun r => npRoll r (-1))) c)
  else none

/-- The column of values stored into `localTE[:, c]` by `teCA`
(source line 139): the calculator's local values for the pair, truncated by
the `dtype=int` destination. -/
def teCAcolumn (calcTE : Nat → List Int → List Int → List ℚ) (k : Nat)
    (neighb : String) (ca : List (List Int)) (c : Nat) : Option (List Int) :=
  (teCAy neighb ca c).map (fun y => (calcTE k y (col ca c)).map truncQ)

/-- Embedding of `teCA` (source lines 82-142).  `n` is `ca.shape[1]`.  The
result matrix is rebuilt row-wise from its columns; when the neighbor is
invalid and the column loop runs at least once, the unbound `y` aborts the
function (`none`).  When `n = 0` the loop body never runs and the
`np.zeros(ca.shape)` allocation is returned unchanged. -/
def teCA (calcTE : Nat → List Int → List Int → List ℚ) (k : Nat)
    (neighbor : String) (ca : List (List Int)) (n : Nat) :
    Option (List (List Int)) :=
  let neighb := pyUpper neighbor
  if neighb = "L" ∨ neighb = "R" ∨ n = 0 then
    some ((List.range ca.length).map fun t =>
      (List.range n).map fun c => ((teCAcolumn calcTE k neighb ca c).getD []).getD t 0)
  else none

/-- The calculator calls issued by one iteration of `teCA`'s column loop
(source lines 133-139): build the arrays, `initialise`, `addObservations`,
`computeLocalFromPreviousObservations`.  With an invalid neighbor the
iteration dies before reaching the calculator, producing no events. -/
def teCAcolTrace (neighb : String) (ca : List (List Int)) (c : Nat) : List CalcEvent :=
  match teCAy neighb ca c with
  | some y => [CalcEvent.initialise, CalcEvent.addObservations y (col ca c),
      CalcEvent.computeLocal y (col ca c)]
  | none => []

/-- The full sequence of calculator calls issued by `teCA`. -/
def teCATrace (neighbor : String) (ca : List (List Int)) (n : Nat) : List CalcEvent :=
  (List.range n).flatMap (teCAcolTrace (pyUpper neighbor) ca)

/-- The source series used by `teCA_Box` for destination column `c` and offset
`i` (source lines 270-278): column `c` of `ca` rolled by `±i` along axis 1. -/
def teBoxY (neighb : String) (ca : List (List Int)) (c i : Nat) : Option (List Int) :=
  if neighb = "L" then some (col (ca.map (fun r => npRoll r (i : Int))) c)
  else if neighb = "R" then some (col (ca.map (fun r => npRoll r (-(i : Int)))) c)
  else none

/-- Embedding of `teCA_Box` (source lines 215-298): a 3-D result indexed
`[t][c][i]`, the slice at offset `i` holding the truncated calculator values
of column `c` against its offset-`i` neighbor. -/
def teCA_Box (calcTE : Nat → List Int → List Int → List ℚ) (k : Nat)
    (neighbor : String) (ca : List (List Int)) (n : Nat) :
    Option (List (List (List Int))) :=
  let neighb := pyUpper neighbor
  if neighb = "L" ∨ neighb = "R" ∨ n = 0 then
    some ((List.range ca.length).map fun t =>
      (List.range n).map fun c =>
        (List.range n).map fun i =>
          (((teBoxY neighb ca c i).map
            (fun y => (calcTE k y (col ca c)).map truncQ)).getD []).getD t 0)
  else none

/-- The shuffled source series of `teCA_null` for trial `i`, column `c`
(source lines 190-193): `np.random.shuffle` applied to a copy of column `c`,
the permutation drawn at that point of the RNG stream being the oracle
`shuffle i c`. -/
def nullY (shuffle : Nat → Nat → List Int → List Int) (ca : List (List Int))
    (i c : Nat) : List Int :=
  shuffle i c (col ca c)

/-- The values `localTE[t, c, :]` of `teCA_null`'s 3-D trial array
(source line 201): one truncated calculator value per trial. -/
def nullTrialVals (calcTE : Nat → List Int → List Int → List ℚ)
    (shuffle : Nat → Nat → List Int → List Int) (k : Nat)
    (ca : List (List Int)) (N t c : Nat) : List Int :=
  (List.range N).map fun i =>
    ((calcTE k (nullY shuffle ca i c) (col ca c)).map truncQ).getD t 0

/-- numpy `mean` of an integer vector with `dtype=float`, as an exact rational. -/
def npMean (l : List Int) : ℚ :=
  (l.sum : ℚ) / l.length

/-- The mean of squared deviations under the square root of `np.std`. -/
def npVar (l : List Int) : ℚ :=
  ((l.map fun v => ((v : ℚ) - npMean l) ^ 2).sum) / l.length

/-- numpy population standard deviation (`np.std`) of an integer vector. -/
noncomputable def npStd (l : List Int) : ℝ :=
  Real.sqrt (npVar l)

/-- numpy `max` reduction of a vector (the source applies it with at least one
trial, so the empty default is never reached). -/
def npMax (l : List Int) : Int :=
  match l with
  | [] => 0
  | a :: r => r.foldl max a

/-- Embedding of `teCA_null` (source lines 149-208): the per-position mean,
standard deviation and maximum, over the trial axis, of the truncated
calculator values on shuffled copies of each column. -/
noncomputable def teCA_null (calcTE : Nat → List Int → List Int → List ℚ)
    (shuffle : Nat → Nat → List Int → List Int) (k : Nat)
    (ca : List (List Int)) (n N : Nat) :
    List (List ℚ) × List (List ℝ) × List (List Int) :=
  ((List.range ca.length).map fun t =>
      (List.range n).map fun c => npMean (nullTrialVals calcTE shuffle k ca N t c),
   (List.range ca.length).map fun t =>
      (List.range n).map fun c => npStd (nullTrialVals calcTE shuffle k ca N t c),
   (List.range ca.length).map fun t =>
      (List.range n).map fun c => npMax (nullTrialVals calcTE shuffle k ca N t c))

/-- The calculator calls issued by `teCA_null` (source lines 184-201), in
trial-major, column-minor order. -/
def teCA_nullTrace (shuffle : Nat → Nat → List Int → List Int)
    (ca : List (List Int)) (n N : Nat) : List CalcEvent :=
  (List.range N).flatMap fun i => (List.range n).flatMap fun c =>
    [CalcEvent.initialise,
     CalcEvent.addObservations (nullY shuffle ca i c) (col ca c),
     CalcEvent.computeLocal (nullY shuffle ca i c) (col ca c)]

/-- np.argmax semantics: the first index whose value is greater than or equal
to every element (numpy returns the first occurrence of the maximum). -/
def npArgmax (l : List ℚ) : Nat :=
  l.findIdx (fun v => l.all (fun w => decide (w ≤ v)))

/-- np.unravel_index of a flat index over a 2-D shape with `cols` columns. -/
def npUnravel (idx cols : Nat) : Nat × Nat :=
  (idx / cols, idx % cols)

/-- numpy indexing of a 1-D array by a possibly negative Python integer:
negative indices wrap once around the end of the array. -/
def npIndexWrap (l : List Nat) (k : Int) : Nat :=
  l.getD ((k.emod l.length).toNat) 0

/-- Increment slot `j` of a counter array (`towns[j] += 1`). -/
def bumpAt (ts : List Nat) (j : Nat) : List Nat :=
  ts.set j (ts.getD j 0 + 1)

/-- The slot of `towns` incremented for destination row `i` of
`greatestInfluence` (source lines 334-337): `indicies[i - index[1]]`, where
`index` is the unravelled flat argmax of the plane `teBox[i,:,:]`. -/
def influenceTarget (teBox : List (List (List ℚ))) (i : Nat) : Nat :=
  let plane := (teBox.getD i []).flatten
  let cols := ((teBox.getD i []).headD []).length
  npIndexWrap (List.range 226) ((i : Int) - ((npUnravel (npArgmax plane) cols).2 : Int))

/-- Embedding of `greatestInfluence` (source lines 306-339). -/
def greatestInfluence (teBox : List (List (List ℚ))) : List Nat × List Nat :=
  (List.range 226,
   (List.range teBox.length).foldl (fun ts i => bumpAt ts (influenceTarget teBox i))
     (List.replicate teBox.length 0))

/-- Embedding of `createCA` with the RNG made explicit: `randInit seed n` is the row that
`np.random.randint(0,2,size=n)` draws when the generator was seeded with
`seed`. -/
def createCA_run (randInit : Nat → Nat → List Int) (rule : Int → Int → Int → Int)
    (timesteps n seed : Nat) : List (List Int) :=
  createCA rule timesteps (randInit seed n)

/-- Embedding of `teCA_null` with the RNG made explicit: `shuffleOf seed` is the family of
permutations that `np.random.shuffle` applies when the generator was seeded
with `seed`. -/
noncomputable def teCA_null_run (calcTE : Nat → List Int → List Int → List ℚ)
    (shuffleOf : Nat → Nat → Nat → List Int → List Int) (k : Nat)
    (ca : List (List Int)) (n N seed : Nat) :
    List (List ℚ) × List (List ℝ) × List (List Int) :=
  teCA_null calcTE (shuffleOf seed) k ca n N

/-! Helper lemmas on list indexing, rolling and truncation. -/

/-- getD of a mapped range at an in-range index. -/
theorem getD_map_range {α : Type} (f : Nat → α) (d : α) {n i : Nat} (h : i < n) :
    ((List.range n).map f).getD i d = f i := by
  rw [List.getD_eq_getElem _ _ (by simpa using h), List.getElem_map, List.getElem_range]

/-- Rebuilding a list from its getD values over its index range. -/
theorem map_range_getD {α : Type} (l : List α) (d : α) :
    (List.range l.length).map (fun i => l.getD i d) = l := by
  apply List.ext_getElem
  · simp
  · intro i h1 h2
    rw [List.getElem_map, List.getElem_range, List.getD_eq_getElem _ _ h2]

/-- getD of a range at an in-range index. -/
theorem getD_range {n m : Nat} (h : m < n) : (List.range n).getD m 0 = m := by
  rw [List.getD_eq_getElem _ _ (by simpa using h), List.getElem_range]

/-- getD through a rotation. -/
theorem getD_rotate {α : Type} (l : List α) (d : α) (m : Nat) {i : Nat} (h : i < l.length) :
    (l.rotate m).getD i d = l.getD ((i + m) % l.length) d := by
  have hl : i < (l.rotate m).length := by simpa using h
  rw [List.getD_eq_getElem _ _ hl, List.getElem_rotate,
    List.getD_eq_getElem _ _ (Nat.mod_lt _ (by omega))]

/-- The `emod` method is the `%` operator on integers. -/
theorem emod_eq_mod (a b : Int) : a.emod b = a % b := rfl

/-- The entries of `npRoll v k`: element `i` is element `(i - k) mod n` of `v`. -/
theorem npRoll_getD (r : List Int) {n : Nat} (hr : r.length = n) (k : Int) {i : Nat}
    (hi : i < n) :
    (npRoll r k).getD i 0 = r.getD (((i : Int) - k).emod n).toNat 0 := by
  have hn : 0 < n := by omega
  have hnz : ((n : Nat) : Int) ≠ 0 := by exact_mod_cast hn.ne'
  have h1 : npRoll r k = r.rotate ((-k).emod n).toNat := by rw [npRoll, hr]
  rw [h1, getD_rotate r 0 _ (by omega)]
  congr 1
  rw [hr]
  simp only [emod_eq_mod]
  have h2 : ((((-k) % (n : Int)).toNat : Nat) : Int) = (-k) % n :=
    Int.toNat_of_nonneg (Int.emod_nonneg _ hnz)
  have h3 : (((i + ((-k) % (n : Int)).toNat) % n : Nat) : Int) = ((i : Int) - k) % n := by
    rw [Int.ofNat_emod]
    push_cast
    rw [h2]
    conv_lhs => rw [Int.add_emod]
    rw [Int.emod_emod_of_dvd _ dvd_rfl, ← Int.add_emod, ← sub_eq_add_neg]
  omega

/-- Cast-and-truncate form of a natural addition modulo `n`. -/
theorem emod_toNat_add {c j n : Nat} (hn : 0 < n) :
    (((c : Int) + j).emod n).toNat = (c + j) % n := by
  have h : (((c + j) % n : Nat) : Int) = ((c : Int) + j).emod n := by
    rw [Int.ofNat_emod]; push_cast; rfl
  omega

/-- Cast-and-truncate form of subtracting one modulo `n`. -/
theorem emod_toNat_sub_one {c n : Nat} (hn : 0 < n) :
    (((c : Int) - 1).emod n).toNat = (c + n - 1) % n := by
  simp only [emod_eq_mod]
  have h0 : ((c + n - 1 : Nat) : Int) = (c : Int) - 1 + n := by push_cast <;> omega
  have h1 : ((c : Int) - 1 + n) % (n : Int) = ((c : Int) - 1) % n := by
    have h2 := Int.add_mul_emod_self_left (a := (c : Int) - 1) (b := (n : Int)) (c := 1)
    simpa using h2
  have h : (((c + n - 1) % n : Nat) : Int) = ((c : Int) - 1) % n := by
    rw [Int.ofNat_emod, h0, h1]
  omega

/-- Rolling by 0 is the identity. -/
theorem npRoll_zero (r : List Int) : npRoll r 0 = r := by
  simp [npRoll, emod_eq_mod]

/-- Length of a column. -/
theorem col_length (m : List (List Int)) (c : Nat) : (col m c).length = m.length := by
  simp [col]

/-- Column `c` of a matrix with every row rolled by `k` is column
`(c - k) mod n` of the matrix. -/
theorem col_map_npRoll (ca : List (List Int)) {n : Nat} (hrows : ∀ r ∈ ca, r.length = n)
    (k : Int) {c : Nat} (hc : c < n) :
    col (ca.map (fun r => npRoll r k)) c = col ca ((((c : Int) - k).emod n).toNat) := by
  unfold col
  rw [List.map_map]
  apply List.map_congr_left
  intro r hr
  exact npRoll_getD r (hrows r hr) k hc

/-- Truncation of zero. -/
theorem truncQ_zero : truncQ 0 = 0 := rfl

/-- getD through an elementwise truncation. -/
theorem getD_map_truncQ (l : List ℚ) (t : Nat) :
    (l.map truncQ).getD t 0 = truncQ (l.getD t 0) := by
  rcases lt_or_ge t l.length with h | h
  · rw [List.getD_eq_getElem _ _ (by simpa using h), List.getElem_map,
      List.getD_eq_getElem _ _ h]
  · rw [List.getD_eq_default _ _ (by simpa using h), List.getD_eq_default _ _ h, truncQ_zero]

/-- On nonnegative rationals the int cast is the floor. -/
theorem truncQ_of_nonneg {q : ℚ} (hq : 0 ≤ q) : truncQ q = ⌊q⌋ := by
  rw [truncQ, Int.tdiv_eq_ediv (Rat.num_nonneg.mpr hq) (Int.ofNat_nonneg _)]
  conv_rhs => rw [← Rat.num_div_den q]
  rw [Rat.floor_intCast_div_natCast]

/-- The int cast truncates toward zero: floor on nonnegative values, ceiling on
negative ones. -/
theorem truncQ_eq_ite (q : ℚ) : truncQ q = if 0 ≤ q then ⌊q⌋ else ⌈q⌉ := by
  by_cases hq : 0 ≤ q
  · rw [if_pos hq, truncQ_of_nonneg hq]
  · rw [if_neg hq]
    have h1 : 0 ≤ -q := by push_neg at hq; linarith
    have h2 : truncQ q = -truncQ (-q) := by
      rw [truncQ, truncQ, Rat.neg_num, Rat.den_neg_eq_den, Int.neg_tdiv, neg_neg]
    rw [h2, truncQ_of_nonneg h1, ← Int.ceil_neg, neg_neg]

/-! Lemmas on `createCA`. -/

/-- The matrix `createCA` builds lists the iterates of `caStep` starting from the initial row. -/
theorem createCA_eq_iterate (rule : Int → Int → Int → Int) (t : Nat) (s : List Int) :
    createCA rule t s = (List.range (t + 1)).map (fun j => (caStep rule)^[j] s) := by
  induction t generalizing s with
  | zero => simp [createCA]
  | succ t ih =>
    rw [createCA, List.range_succ_eq_map, List.map_cons, List.map_map, ih (caStep rule s)]
    congr 1

/-- The CA matrix has `timesteps + 1` rows. -/
theorem createCA_length (rule : Int → Int → Int → Int) (t : Nat) (s : List Int) :
    (createCA rule t s).length = t + 1 := by
  rw [createCA_eq_iterate]; simp

/-- Row `j` of the CA matrix is the `j`-th iterate of the update. -/
theorem createCA_getD (rule : Int → Int → Int → Int) {t j : Nat} (s : List Int)
    (hj : j ≤ t) :
    (createCA rule t s).getD j [] = (caStep rule)^[j] s := by
  rw [createCA_eq_iterate]
  exact getD_map_range _ _ (by omega)

/-- One update step preserves the row length. -/
theorem caStep_length (rule : Int → Int → Int → Int) (s : List Int) :
    (caStep rule s).length = s.length := by
  simp [caStep]

/-- Iterated update steps preserve the row length. -/
theorem iterate_caStep_length (rule : Int → Int → Int → Int) (j : Nat) (s : List Int) :
    ((caStep rule)^[j] s).length = s.length := by
  induction j with
  | zero => rfl
  | succ j ih => rw [Function.iterate_succ_apply', caStep_length, ih]

/-- One update step keeps all cells binary when the rule table is binary. -/
theorem caStep_binary {rule : Int → Int → Int → Int}
    (hrule : ∀ a b c : Int, (a = 0 ∨ a = 1) → (b = 0 ∨ b = 1) → (c = 0 ∨ c = 1) →
      (rule a b c = 0 ∨ rule a b c = 1))
    {s : List Int} (hs : ∀ v ∈ s, v = 0 ∨ v = 1) :
    ∀ v ∈ caStep rule s, v = 0 ∨ v = 1 := by
  intro v hv
  simp only [caStep, List.mem_map, List.mem_range] at hv
  obtain ⟨i, hi, rfl⟩ := hv
  have harg : ∀ (l : List Int), (∀ w ∈ l, w = 0 ∨ w = 1) → i < l.length →
      l.getD i 0 = 0 ∨ l.getD i 0 = 1 := by
    intro l hl hil
    rw [List.getD_eq_getElem _ _ hil]
    exact hl _ (List.getElem_mem hil)
  have hroll : ∀ kk : Int, ∀ w ∈ npRoll s kk, w = 0 ∨ w = 1 := by
    intro kk w hw
    rw [npRoll, List.mem_rotate] at hw
    exact hs w hw
  refine hrule _ _ _ ?_ ?_ ?_
  · exact harg _ (hroll 1) (by simp [npRoll, hi])
  · exact harg _ hs hi
  · exact harg _ (hroll (-1)) (by simp [npRoll, hi])

/-- All cells of the CA matrix are binary when the rule and the initial row are. -/
theorem createCA_binary {rule : Int → Int → Int → Int}
    (hrule : ∀ a b c : Int, (a = 0 ∨ a = 1) → (b = 0 ∨ b = 1) → (c = 0 ∨ c = 1) →
      (rule a b c = 0 ∨ rule a b c = 1))
    {s : List Int} (hs : ∀ v ∈ s, v = 0 ∨ v = 1) (t : Nat) :
    ∀ r ∈ createCA rule t s, ∀ v ∈ r, v = 0 ∨ v = 1 := by
  have hiter : ∀ j, ∀ v ∈ (caStep rule)^[j] s, v = 0 ∨ v = 1 := by
    intro j
    induction j with
    | zero => exact hs
    | succ j ih =>
      rw [Function.iterate_succ_apply']
      exact caStep_binary hrule ih
  intro r hr
  rw [createCA_eq_iterate] at hr
  simp only [List.mem_map, List.mem_range] at hr
  obtain ⟨j, _, rfl⟩ := hr
  exact hiter j

/-- The pointwise form of the update step: cell `i` of the next row is the rule
applied to the wrap-around neighborhood of cell `i` in the current row. -/
theorem caStep_getD (rule : Int → Int → Int → Int) {s : List Int} {n i : Nat}
    (hs : s.length = n) (hi : i < n) :
    (caStep rule s).getD i 0 =
      rule (s.getD ((i + n - 1) % n) 0) (s.getD i 0) (s.getD ((i + 1) % n) 0) := by
  have hn : 0 < n := by omega
  simp only [caStep]
  rw [getD_map_range _ _ (by omega : i < s.length)]
  rw [npRoll_getD s hs 1 hi, npRoll_getD s hs (-1) hi]
  rw [emod_toNat_sub_one hn]
  rw [show ((i : Int) - (-1)) = ((i : Int) + (1 : Nat)) by push_cast; ring]
  rw [emod_toNat_add hn]

/-- C1: on a rule table that is binary on binary triples, any `timesteps` and
any initial row of width `n ≥ 1`, `createCA` returns a `(timesteps+1) × n`
matrix with all entries 0 or 1, whose row 0 is the (random) initial state and
in which cell `(t+1, i)` is the rule looked up on the wrap-around neighborhood
`((i-1) mod n, i, (i+1) mod n)` of row `t` — a synchronous update of every
cell from the previous row. -/
theorem createCA_spec (rule : Int → Int → Int → Int) (timesteps n : Nat)
    (init : List Int) (hn : 0 < n) (hinitlen : init.length = n)
    (hinit : ∀ v ∈ init, v = 0 ∨ v = 1)
    (hrule : ∀ a b c : Int, (a = 0 ∨ a = 1) → (b = 0 ∨ b = 1) → (c = 0 ∨ c = 1) →
      (rule a b c = 0 ∨ rule a b c = 1)) :
    (createCA rule timesteps init).length = timesteps + 1 ∧
    (∀ r ∈ createCA rule timesteps init, r.length = n) ∧
    (∀ r ∈ createCA rule timesteps init, ∀ v ∈ r, v = 0 ∨ v = 1) ∧
    (createCA rule timesteps init).getD 0 [] = init ∧
    (∀ t, t < timesteps → ∀ i, i < n →
      ((createCA rule timesteps init).getD (t + 1) []).getD i 0 =
        rule (((createCA rule timesteps init).getD t []).getD ((i + n - 1) % n) 0)
          (((createCA rule timesteps init).getD t []).getD i 0)
          (((createCA rule timesteps init).getD t []).getD ((i + 1) % n) 0)) := by
  refine ⟨createCA_length rule timesteps init, ?_,
    createCA_binary hrule hinit timesteps, ?_, ?_⟩
  · intro r hr
    rw [createCA_eq_iterate] at hr
    simp only [List.mem_map, List.mem_range] at hr
    obtain ⟨j, _, rfl⟩ := hr
    rw [iterate_caStep_length, hinitlen]
  · rw [createCA_getD rule init (Nat.zero_le _)]
    rfl
  · intro t ht i hi
    have hlen : ((caStep rule)^[t] init).length = n := by
      rw [iterate_caStep_length, hinitlen]
    rw [createCA_getD rule init (show t + 1 ≤ timesteps by omega),
      createCA_getD rule init (show t ≤ timesteps by omega),
      Function.iterate_succ_apply']
    exact caStep_getD rule hlen hi

/-- Witness for C1: a concrete rule table, two timesteps and width two. -/
theorem createCA_spec_witness :
    (createCA (fun _ _ _ => 1) 2 [0, 1]).length = 2 + 1 ∧
    (∀ r ∈ createCA (fun _ _ _ => 1) 2 [0, 1], r.length = 2) ∧
    (∀ r ∈ createCA (fun _ _ _ => 1) 2 [0, 1], ∀ v ∈ r, v = 0 ∨ v = 1) ∧
    (createCA (fun _ _ _ => 1) 2 [0, 1]).getD 0 [] = [0, 1] ∧
    (∀ t, t < 2 → ∀ i, i < 2 →
      ((createCA (fun _ _ _ => 1) 2 [0, 1]).getD (t + 1) []).getD i 0 =
        (fun _ _ _ => (1 : Int))
          (((createCA (fun _ _ _ => 1) 2 [0, 1]).getD t []).getD ((i + 2 - 1) % 2) 0)
          (((createCA (fun _ _ _ => 1) 2 [0, 1]).getD t []).getD i 0)
          (((createCA (fun _ _ _ => 1) 2 [0, 1]).getD t []).getD ((i + 1) % 2) 0)) :=
  createCA_spec (fun _ _ _ => 1) 2 2 [0, 1] (by decide) (by decide) (by decide)
    (fun _ _ _ _ _ _ => Or.inr rfl)

/-- C7: with the pseudo-random stream made an explicit function of the seed,
equal seeds and equal arguments give identical `createCA` matrices and
identical `teCA_null` output triples — the embedding routes every random draw
through the seed, so outputs are deterministic given the seed. -/
theorem seeded_runs_deterministic (randInit : Nat → Nat → List Int)
    (rule : Int → Int → Int → Int) (timesteps n : Nat)
    (calcTE : Nat → List Int → List Int → List ℚ)
    (shuffleOf : Nat → Nat → Nat → List Int → List Int) (k : Nat)
    (ca : List (List Int)) (m N : Nat) (s₁ s₂ : Nat) (h : s₁ = s₂) :
    createCA_run randInit rule timesteps n s₁ = createCA_run randInit rule timesteps n s₂ ∧
    teCA_null_run calcTE shuffleOf k ca m N s₁ = teCA_null_run calcTE shuffleOf k ca m N s₂ := by
  subst h
  exact ⟨rfl, rfl⟩

/-- Witness for C7 at concrete oracles, arguments and equal seeds. -/
theorem seeded_runs_deterministic_witness :
    createCA_run (fun _ n => List.replicate n 0) (fun _ _ _ => 0) 3 4 7 =
      createCA_run (fun _ n => List.replicate n 0) (fun _ _ _ => 0) 3 4 7 ∧
    teCA_null_run (fun _ _ x => x.map fun _ => 0) (fun _ _ _ l => l) 1 [[0, 1]] 2 2 7 =
      teCA_null_run (fun _ _ x => x.map fun _ => 0) (fun _ _ _ l => l) 1 [[0, 1]] 2 2 7 :=
  seeded_runs_deterministic (fun _ n => List.replicate n 0) (fun _ _ _ => 0) 3 4
    (fun _ _ x => x.map fun _ => 0) (fun _ _ _ l => l) 1 [[0, 1]] 2 2 7 7 rfl

/-- C9: when the upper-cased neighbor is neither "L" nor "R" and there is at
least one column, the first loop iteration of `teCA` and of `teCA_Box` hits the
unbound local `y` and no (partial) transfer-entropy matrix is produced. -/
theorem invalid_neighbor_no_result (calcTE : Nat → List Int → List Int → List ℚ)
    (k : Nat) (neighbor : String) (ca : List (List Int)) (n : Nat)
    (hL : pyUpper neighbor ≠ "L") (hR : pyUpper neighbor ≠ "R") (hn : 0 < n) :
    teCA calcTE k neighbor ca n = none ∧ teCA_Box calcTE k neighbor ca n = none := by
  constructor
  · simp only [teCA]
    rw [if_neg (by push_neg; exact ⟨hL, hR, by omega⟩)]
  · simp only [teCA_Box]
    rw [if_neg (by push_neg; exact ⟨hL, hR, by omega⟩)]

/-- Witness for C9 at the invalid neighbor string "X". -/
theorem invalid_neighbor_no_result_witness :
    teCA (fun _ _ _ => []) 1 "X" [[0]] 1 = none ∧
    teCA_Box (fun _ _ _ => []) 1 "X" [[0]] 1 = none :=
  invalid_neighbor_no_result (fun _ _ _ => []) 1 "X" [[0]] 1 (by decide) (by decide)
    (by decide)

/-! Column lemmas for `teCA`. -/

/-- For the left neighbor the source series of column `c` is column
`(c-1) mod n`, written `(c + n - 1) % n`. -/
theorem teCAy_left (ca : List (List Int)) {n : Nat} (hrows : ∀ r ∈ ca, r.length = n)
    {c : Nat} (hc : c < n) :
    teCAy "L" ca c = some (col ca ((c + n - 1) % n)) := by
  rw [teCAy, if_pos rfl, col_map_npRoll ca hrows 1 hc, emod_toNat_sub_one (by omega)]

/-- For the right neighbor the source series of column `c` is column
`(c+1) mod n`. -/
theorem teCAy_right (ca : List (List Int)) {n : Nat} (hrows : ∀ r ∈ ca, r.length = n)
    {c : Nat} (hc : c < n) :
    teCAy "R" ca c = some (col ca ((c + 1) % n)) := by
  rw [teCAy, if_neg (by decide), if_pos rfl, col_map_npRoll ca hrows (-1) hc]
  congr 2

/-- Column `c` of a matrix assembled row-wise from columns is the stored
column, provided it has one value per row. -/
theorem col_teCA_assembled {T n : Nat} (f : Nat → List Int) {c : Nat} (hc : c < n)
    (hf : (f c).length = T) :
    col ((List.range T).map fun t => (List.range n).map fun c' => (f c').getD t 0) c
      = f c := by
  unfold col
  rw [List.map_map]
  have h1 : (List.range T).map
      ((fun r => r.getD c 0) ∘ fun t => (List.range n).map fun c' => (f c').getD t 0) =
      (List.range T).map (fun t => (f c).getD t 0) := by
    apply List.map_congr_left
    intro t _
    exact getD_map_range _ _ hc
  rw [h1, ← hf, map_range_getD]

/-- Congruence for flat maps over a shared list. -/
theorem flatMap_congr {α β : Type} {l : List α} {f g : α → List β}
    (h : ∀ a ∈ l, f a = g a) : l.flatMap f = l.flatMap g := by
  induction l with
  | nil => rfl
  | cons a l ih =>
    rw [List.flatMap_cons, List.flatMap_cons, h a (by simp),
      ih (fun b hb => h b (by simp [hb]))]

/-- A flat map of singletons is a map. -/
theorem flatMap_singleton_eq_map {α β : Type} (l : List α) (f : α → β) :
    (l.flatMap fun a => [f a]) = l.map f := by
  induction l with
  | nil => rfl
  | cons a l ih =>
    rw [List.flatMap_cons, List.map_cons, ih]
    rfl

/-- Each per-column event triple of the trace contributes exactly one
`computeLocalFromPreviousObservations` call. -/
theorem length_filter_flatMap_triple {α : Type} (l : List α) (f g : α → List Int) :
    ((l.flatMap fun c =>
      [CalcEvent.initialise, CalcEvent.addObservations (f c) (g c),
       CalcEvent.computeLocal (f c) (g c)]).filter CalcEvent.isCompute).length
      = l.length := by
  induction l with
  | nil => rfl
  | cons a l ih =>
    rw [List.flatMap_cons, List.filter_append, List.length_append, ih]
    have h : ([CalcEvent.initialise, CalcEvent.addObservations (f a) (g a),
        CalcEvent.computeLocal (f a) (g a)].filter CalcEvent.isCompute).length = 1 := rfl
    rw [h, List.length_cons]
    omega

/-- On a valid (or vacuous) neighbor, `teCA` returns the assembled matrix. -/
theorem teCA_eq_some (calcTE : Nat → List Int → List Int → List ℚ) (k : Nat)
    (neighbor : String) (ca : List (List Int)) (n : Nat)
    (hv : pyUpper neighbor = "L" ∨ pyUpper neighbor = "R" ∨ n = 0) :
    teCA calcTE k neighbor ca n = some ((List.range ca.length).map fun t =>
      (List.range n).map fun c =>
        ((teCAcolumn calcTE k (pyUpper neighbor) ca c).getD []).getD t 0) := by
  simp only [teCA]
  rw [if_pos hv]

/-- Shared shape of the C2 obligations, parametric in the per-column source. -/
theorem teCA_valid_spec_aux (calcTE : Nat → List Int → List Int → List ℚ) (k : Nat)
    (neighbor : String) (ca : List (List Int)) {n : Nat}
    (hlen : ∀ y x : List Int, (calcTE k y x).length = x.length) (src : Nat → Nat)
    (hneighb : ∀ c, c < n → teCAy (pyUpper neighbor) ca c = some (col ca (src c)))
    (hv : pyUpper neighbor = "L" ∨ pyUpper neighbor = "R") :
    teCATrace neighbor ca n = (List.range n).flatMap (fun c =>
      [CalcEvent.initialise, CalcEvent.addObservations (col ca (src c)) (col ca c),
       CalcEvent.computeLocal (col ca (src c)) (col ca c)]) ∧
    ((teCATrace neighbor ca n).filter CalcEvent.isCompute).length = n ∧
    ∃ M, teCA calcTE k neighbor ca n = some M ∧
      ∀ c, c < n → col M c = (calcTE k (col ca (src c)) (col ca c)).map truncQ := by
  have htrace : teCATrace neighbor ca n = (List.range n).flatMap (fun c =>
      [CalcEvent.initialise, CalcEvent.addObservations (col ca (src c)) (col ca c),
       CalcEvent.computeLocal (col ca (src c)) (col ca c)]) := by
    rw [teCATrace]
    apply flatMap_congr
    intro c hcmem
    rw [List.mem_range] at hcmem
    rw [teCAcolTrace, hneighb c hcmem]
  refine ⟨htrace, ?_, ?_⟩
  · rw [htrace]
    have h := length_filter_flatMap_triple (List.range n)
      (fun c => col ca (src c)) (fun c => col ca c)
    rw [List.length_range] at h
    exact h
  · refine ⟨_, teCA_eq_some calcTE k neighbor ca n (by tauto), ?_⟩
    intro c hc
    have hcol : teCAcolumn calcTE k (pyUpper neighbor) ca c =
        some ((calcTE k (col ca (src c)) (col ca c)).map truncQ) := by
      rw [teCAcolumn, hneighb c hc]
      rfl
    have hflen : (((teCAcolumn calcTE k (pyUpper neighbor) ca c).getD [])).length
        = ca.length := by
      rw [hcol, Option.getD_some, List.length_map, hlen, col_length]
    have h2 := col_teCA_assembled
      (fun c' => (teCAcolumn calcTE k (pyUpper neighbor) ca c').getD []) hc hflen
    rw [h2]
    simp only [hcol, Option.getD_some]

/-- C2 (amended): `teCA` re-initialises the external calculator and invokes it
exactly once per spatial column (`n` compute calls in total); the destination
sequence is column `c` and the source sequence is column `(c-1) mod n` when the
upper-cased neighbor is "L" and column `(c+1) mod n` when it is "R"; column `c`
of the result is the elementwise truncation toward zero (the `dtype=int` cast)
of the calculator's per-position local transfer-entropy output for that pair. -/
theorem teCA_calls_spec (calcTE : Nat → List Int → List Int → List ℚ) (k : Nat)
    (neighbor : String) (ca : List (List Int)) (n : Nat)
    (hrows : ∀ r ∈ ca, r.length = n)
    (hlen : ∀ y x : List Int, (calcTE k y x).length = x.length) :
    (pyUpper neighbor = "L" →
      teCATrace neighbor ca n = (List.range n).flatMap (fun c =>
        [CalcEvent.initialise,
         CalcEvent.addObservations (col ca ((c + n - 1) % n)) (col ca c),
         CalcEvent.computeLocal (col ca ((c + n - 1) % n)) (col ca c)]) ∧
      ((teCATrace neighbor ca n).filter CalcEvent.isCompute).length = n ∧
      ∃ M, teCA calcTE k neighbor ca n = some M ∧
        ∀ c, c < n →
          col M c = (calcTE k (col ca ((c + n - 1) % n)) (col ca c)).map truncQ) ∧
    (pyUpper neighbor = "R" →
      teCATrace neighbor ca n = (List.range n).flatMap (fun c =>
        [CalcEvent.initialise,
         CalcEvent.addObservations (col ca ((c + 1) % n)) (col ca c),
         CalcEvent.computeLocal (col ca ((c + 1) % n)) (col ca c)]) ∧
      ((teCATrace neighbor ca n).filter CalcEvent.isCompute).length = n ∧
      ∃ M, teCA calcTE k neighbor ca n = some M ∧
        ∀ c, c < n →
          col M c = (calcTE k (col ca ((c + 1) % n)) (col ca c)).map truncQ) := by
  constructor
  · intro hL
    exact teCA_valid_spec_aux calcTE k neighbor ca hlen (fun c => (c + n - 1) % n)
      (fun c hc => by rw [hL]; exact teCAy_left ca hrows hc) (Or.inl hL)
  · intro hR
    exact teCA_valid_spec_aux calcTE k neighbor ca hlen (fun c => (c + 1) % n)
      (fun c hc => by rw [hR]; exact teCAy_right ca hrows hc) (Or.inr hR)

/-- Witness for C2 with the lower-case neighbor "l", a 2 by 1 matrix and a
calculator returning one half at every position. -/
theorem teCA_calls_spec_witness :
    (pyUpper "l" = "L" →
      teCATrace "l" [[0], [1]] 1 = (List.range 1).flatMap (fun c =>
        [CalcEvent.initialise,
         CalcEvent.addObservations (col [[0], [1]] ((c + 1 - 1) % 1)) (col [[0], [1]] c),
         CalcEvent.computeLocal (col [[0], [1]] ((c + 1 - 1) % 1)) (col [[0], [1]] c)]) ∧
      ((teCATrace "l" [[0], [1]] 1).filter CalcEvent.isCompute).length = 1 ∧
      ∃ M, teCA (fun _ _ x => x.map fun _ => mkRat 1 2) 1 "l" [[0], [1]] 1 = some M ∧
        ∀ c, c < 1 →
          col M c = ((fun (_ : Nat) (_ x : List Int) => x.map fun _ => mkRat 1 2) 1
            (col [[0], [1]] ((c + 1 - 1) % 1)) (col [[0], [1]] c)).map truncQ) ∧
    (pyUpper "l" = "R" →
      teCATrace "l" [[0], [1]] 1 = (List.range 1).flatMap (fun c =>
        [CalcEvent.initialise,
         CalcEvent.addObservations (col [[0], [1]] ((c + 1) % 1)) (col [[0], [1]] c),
         CalcEvent.computeLocal (col [[0], [1]] ((c + 1) % 1)) (col [[0], [1]] c)]) ∧
      ((teCATrace "l" [[0], [1]] 1).filter CalcEvent.isCompute).length = 1 ∧
      ∃ M, teCA (fun _ _ x => x.map fun _ => mkRat 1 2) 1 "l" [[0], [1]] 1 = some M ∧
        ∀ c, c < 1 →
          col M c = ((fun (_ : Nat) (_ x : List Int) => x.map fun _ => mkRat 1 2) 1
            (col [[0], [1]] ((c + 1) % 1)) (col [[0], [1]] c)).map truncQ) :=
  teCA_calls_spec (fun _ _ x => x.map fun _ => mkRat 1 2) 1 "l" [[0], [1]] 1
    (by decide) (fun y x => by simp)

/-- C2 counterexample: with a calculator returning one half at every position
on a 2 by 1 input, the stored column is the truncated `[0, 0]`, so column 0 of
the result is not exactly the calculator's per-position output `[1/2, 1/2]`. -/
theorem teCA_result_not_calculator_output :
    teCA (fun _ _ x => x.map fun _ => mkRat 1 2) 1 "L" [[0], [0]] 1 = some [[0], [0]] ∧
    (col [[0], [0]] 0).map (fun v => (v : ℚ)) ≠
      (fun (_ : Nat) (_ x : List Int) => x.map fun _ => mkRat 1 2) 1
        (col [[0], [0]] 0) (col [[0], [0]] 0) := by
  constructor
  · decide
  · decide

/-- On a valid (or vacuous) neighbor, `teCA_Box` returns the assembled box. -/
theorem teCA_Box_eq_some (calcTE : Nat → List Int → List Int → List ℚ) (k : Nat)
    (neighbor : String) (ca : List (List Int)) (n : Nat)
    (hv : pyUpper neighbor = "L" ∨ pyUpper neighbor = "R" ∨ n = 0) :
    teCA_Box calcTE k neighbor ca n = some ((List.range ca.length).map fun t =>
      (List.range n).map fun c =>
        (List.range n).map fun i =>
          (((teBoxY (pyUpper neighbor) ca c i).map
            (fun y => (calcTE k y (col ca c)).map truncQ)).getD []).getD t 0) := by
  simp only [teCA_Box]
  rw [if_pos hv]

/-- At offset 0 the `teCA_Box` source series is the destination column itself. -/
theorem teBoxY_zero (neighb : String) (ca : List (List Int)) (c : Nat)
    (hv : neighb = "L" ∨ neighb = "R") : teBoxY neighb ca c 0 = some (col ca c) := by
  rcases hv with h | h <;> subst h <;> simp [teBoxY, npRoll_zero]

/-- C5: on a valid upper-cased neighbor, `teCA` returns a matrix of exactly the
shape of `ca`, and `teCA_Box` returns a 3-D array of shape
`(ca.length, n, n)` whose slice `[:, :, i]` holds the per-position result
against the candidate neighbor at offset `i`, offset 0 pairing each column
with itself. -/
theorem teCA_shapes_spec (calcTE : Nat → List Int → List Int → List ℚ) (k : Nat)
    (neighbor : String) (ca : List (List Int)) (n : Nat)
    (hrows : ∀ r ∈ ca, r.length = n)
    (hv : pyUpper neighbor = "L" ∨ pyUpper neighbor = "R") :
    (∃ M, teCA calcTE k neighbor ca n = some M ∧
      M.length = ca.length ∧ ∀ r ∈ M, r.length = n) ∧
    (∃ B, teCA_Box calcTE k neighbor ca n = some B ∧
      B.length = ca.length ∧ (∀ p ∈ B, p.length = n ∧ ∀ r ∈ p, r.length = n) ∧
      (∀ t, t < ca.length → ∀ c, c < n → ∀ i, i < n →
        ∃ y, teBoxY (pyUpper neighbor) ca c i = some y ∧
          (i = 0 → y = col ca c) ∧
          ((B.getD t []).getD c []).getD i 0 =
            truncQ ((calcTE k y (col ca c)).getD t 0))) := by
  constructor
  · refine ⟨_, teCA_eq_some calcTE k neighbor ca n (by tauto), ?_, ?_⟩
    · simp
    · intro r hr
      simp only [List.mem_map, List.mem_range] at hr
      obtain ⟨t, _, rfl⟩ := hr
      simp
  · refine ⟨_, teCA_Box_eq_some calcTE k neighbor ca n (by tauto), ?_, ?_, ?_⟩
    · simp
    · intro p hp
      simp only [List.mem_map, List.mem_range] at hp
      obtain ⟨t, _, rfl⟩ := hp
      refine ⟨by simp, ?_⟩
      intro r hr
      simp only [List.mem_map, List.mem_range] at hr
      obtain ⟨c, _, rfl⟩ := hr
      simp
    · intro t ht c hc i hi
      obtain ⟨y, hy⟩ : ∃ y, teBoxY (pyUpper neighbor) ca c i = some y := by
        rcases hv with h | h <;> rw [h, teBoxY]
        · rw [if_pos rfl]
          exact ⟨_, rfl⟩
        · rw [if_neg (by decide), if_pos rfl]
          exact ⟨_, rfl⟩
      refine ⟨y, hy, ?_, ?_⟩
      · intro hi0
        subst hi0
        have h0 := teBoxY_zero (pyUpper neighbor) ca c hv
        rw [h0] at hy
        exact (Option.some_inj.mp hy).symm
      · rw [getD_map_range _ _ ht, getD_map_range _ _ hc, getD_map_range _ _ hi]
        rw [hy]
        simp only [Option.map_some', Option.getD_some]
        exact getD_map_truncQ _ _

/-- Witness for C5 with the lower-case neighbor "r" and a 2 by 1 matrix. -/
theorem teCA_shapes_spec_witness :
    (∃ M, teCA (fun _ _ x => x.map fun _ => mkRat 1 2) 1 "r" [[0], [1]] 1 = some M ∧
      M.length = [[0], [1]].length ∧ ∀ r ∈ M, r.length = 1) ∧
    (∃ B, teCA_Box (fun _ _ x => x.map fun _ => mkRat 1 2) 1 "r" [[0], [1]] 1 = some B ∧
      B.length = [[0], [1]].length ∧ (∀ p ∈ B, p.length = 1 ∧ ∀ r ∈ p, r.length = 1) ∧
      (∀ t, t < [[0], [1]].length → ∀ c, c < 1 → ∀ i, i < 1 →
        ∃ y, teBoxY (pyUpper "r") [[0], [1]] c i = some y ∧
          (i = 0 → y = col [[0], [1]] c) ∧
          ((B.getD t []).getD c []).getD i 0 =
            truncQ (((fun (_ : Nat) (_ x : List Int) => x.map fun _ => mkRat 1 2) 1 y
              (col [[0], [1]] c)).getD t 0))) :=
  teCA_shapes_spec (fun _ _ x => x.map fun _ => mkRat 1 2) 1 "r" [[0], [1]] 1
    (by decide) (by decide)

/-! Lemmas for `teCA_null`. -/

/-- Entry extraction for matrices assembled over ranges. -/
theorem getD_matrix_entry {α : Type} (g : Nat → Nat → α) (d : α) (dr : List α)
    {T n t c : Nat} (ht : t < T) (hc : c < n) :
    (((List.range T).map fun t' => (List.range n).map fun c' => g t' c').getD t dr).getD c d
      = g t c := by
  rw [getD_map_range _ _ ht, getD_map_range _ _ hc]

/-- The accumulator never exceeds a max fold. -/
theorem le_foldl_max_self (l : List Int) (a : Int) : a ≤ l.foldl max a := by
  induction l generalizing a with
  | nil => simp
  | cons b l ih => exact le_trans (le_max_left a b) (ih (max a b))

/-- Every element is bounded by a max fold over its list. -/
theorem le_foldl_max_of_mem {l : List Int} {v : Int} (hv : v ∈ l) (a : Int) :
    v ≤ l.foldl max a := by
  induction l generalizing a with
  | nil => simp at hv
  | cons b l ih =>
    rw [List.foldl_cons]
    rcases List.mem_cons.mp hv with h | h
    · subst h
      exact le_trans (le_max_right a v) (le_foldl_max_self l _)
    · exact ih h _

/-- A max fold returns the accumulator or an element of the list. -/
theorem foldl_max_mem (l : List Int) (a : Int) :
    l.foldl max a = a ∨ l.foldl max a ∈ l := by
  induction l generalizing a with
  | nil => exact Or.inl rfl
  | cons b l ih =>
    rw [List.foldl_cons]
    rcases ih (max a b) with h | h
    · rcases max_cases a b with ⟨h1, _⟩ | ⟨h1, _⟩
      · exact Or.inl (by rw [h, h1])
      · exact Or.inr (by rw [h, h1]; exact List.mem_cons_self b l)
    · exact Or.inr (List.mem_cons_of_mem _ h)

/-- The reduction `np.max` of a nonempty vector is one of its entries. -/
theorem npMax_mem {l : List Int} (hl : l ≠ []) : npMax l ∈ l := by
  match l with
  | [] => exact absurd rfl hl
  | a :: r =>
    simp only [npMax]
    rcases foldl_max_mem r a with h | h
    · rw [h]
      exact List.mem_cons_self a r
    · exact List.mem_cons_of_mem _ h

/-- The reduction `np.max` of a vector bounds every entry. -/
theorem le_npMax {l : List Int} {v : Int} (hv : v ∈ l) : v ≤ npMax l := by
  match l with
  | [] => simp at hv
  | a :: r =>
    simp only [npMax]
    rcases List.mem_cons.mp hv with h | h
    · subst h
      exact le_foldl_max_self r v
    · exact le_foldl_max_of_mem h a

/-- The population variance is nonnegative. -/
theorem npVar_nonneg (l : List Int) : 0 ≤ npVar l := by
  rw [npVar]
  apply div_nonneg
  · apply List.sum_nonneg
    intro x hx
    simp only [List.mem_map] at hx
    obtain ⟨v, _, rfl⟩ := hx
    exact sq_nonneg _
  · exact_mod_cast Nat.zero_le _

/-- One trial value per trial index. -/
theorem nullTrialVals_length (calcTE : Nat → List Int → List Int → List ℚ)
    (shuffle : Nat → Nat → List Int → List Int) (k : Nat)
    (ca : List (List Int)) (N t c : Nat) :
    (nullTrialVals calcTE shuffle k ca N t c).length = N := by
  simp [nullTrialVals]

/-- The trial values are exactly the truncated calculator outputs on the
shuffled baselines. -/
theorem nullTrialVals_eq (calcTE : Nat → List Int → List Int → List ℚ)
    (shuffle : Nat → Nat → List Int → List Int) (k : Nat)
    (ca : List (List Int)) (N t c : Nat) :
    nullTrialVals calcTE shuffle k ca N t c = (List.range N).map fun i =>
      truncQ ((calcTE k (shuffle i c (col ca c)) (col ca c)).getD t 0) := by
  rw [nullTrialVals]
  apply List.map_congr_left
  intro i _
  exact getD_map_truncQ _ _

/-- Shape of a matrix assembled over ranges. -/
theorem assembled_shape {α : Type} (g : Nat → Nat → α) (T n : Nat) :
    ((List.range T).map fun t => (List.range n).map fun c => g t c).length = T ∧
    ∀ r ∈ (List.range T).map fun t => (List.range n).map fun c => g t c, r.length = n := by
  constructor
  · simp
  · intro r hr
    simp only [List.mem_map, List.mem_range] at hr
    obtain ⟨t, _, rfl⟩ := hr
    simp

/-- C3: `teCA_null` returns exactly three matrices, all of the
`(time, location)` shape of the input grid; per position they are the mean, the
population standard deviation and the maximum, across the `N` trials, of the
trial results, i.e. of the local transfer-entropy values computed from the
shuffled baselines. -/
theorem teCA_null_spec (calcTE : Nat → List Int → List Int → List ℚ)
    (shuffle : Nat → Nat → List Int → List Int) (k : Nat)
    (ca : List (List Int)) (n N : Nat) (hN : 0 < N) :
    ((teCA_null calcTE shuffle k ca n N).1.length = ca.length ∧
      (∀ r ∈ (teCA_null calcTE shuffle k ca n N).1, r.length = n) ∧
      (teCA_null calcTE shuffle k ca n N).2.1.length = ca.length ∧
      (∀ r ∈ (teCA_null calcTE shuffle k ca n N).2.1, r.length = n) ∧
      (teCA_null calcTE shuffle k ca n N).2.2.length = ca.length ∧
      (∀ r ∈ (teCA_null calcTE shuffle k ca n N).2.2, r.length = n)) ∧
    (∀ t, t < ca.length → ∀ c, c < n →
      ((teCA_null calcTE shuffle k ca n N).1.getD t []).getD c 0 =
        ((nullTrialVals calcTE shuffle k ca N t c).sum : ℚ) / N ∧
      (((teCA_null calcTE shuffle k ca n N).2.1.getD t []).getD c 0) ^ 2 =
        ((((nullTrialVals calcTE shuffle k ca N t c).map (fun v =>
          ((v : ℚ) - ((nullTrialVals calcTE shuffle k ca N t c).sum : ℚ) / N) ^ 2)).sum / N
          : ℚ) : ℝ) ∧
      0 ≤ ((teCA_null calcTE shuffle k ca n N).2.1.getD t []).getD c 0 ∧
      ((teCA_null calcTE shuffle k ca n N).2.2.getD t []).getD c 0 ∈
        nullTrialVals calcTE shuffle k ca N t c ∧
      (∀ v ∈ nullTrialVals calcTE shuffle k ca N t c,
        v ≤ ((teCA_null calcTE shuffle k ca n N).2.2.getD t []).getD c 0)) := by
  have h1 : (teCA_null calcTE shuffle k ca n N).1 = (List.range ca.length).map fun t =>
      (List.range n).map fun c => npMean (nullTrialVals calcTE shuffle k ca N t c) := rfl
  have h2 : (teCA_null calcTE shuffle k ca n N).2.1 = (List.range ca.length).map fun t =>
      (List.range n).map fun c => npStd (nullTrialVals calcTE shuffle k ca N t c) := rfl
  have h3 : (teCA_null calcTE shuffle k ca n N).2.2 = (List.range ca.length).map fun t =>
      (List.range n).map fun c => npMax (nullTrialVals calcTE shuffle k ca N t c) := rfl
  constructor
  · rw [h1, h2, h3]
    exact ⟨(assembled_shape _ _ _).1, (assembled_shape _ _ _).2, (assembled_shape _ _ _).1,
      (assembled_shape _ _ _).2, (assembled_shape _ _ _).1, (assembled_shape _ _ _).2⟩
  · intro t ht c hc
    rw [h1, h2, h3, getD_matrix_entry _ _ _ ht hc, getD_matrix_entry _ _ _ ht hc,
      getD_matrix_entry _ _ _ ht hc]
    refine ⟨?_, ?_, Real.sqrt_nonneg _, ?_, ?_⟩
    · rw [npMean, nullTrialVals_length]
    · rw [npStd, Real.sq_sqrt (by exact_mod_cast npVar_nonneg _)]
      norm_cast
      rw [npVar, nullTrialVals_length, npMean, nullTrialVals_length, Rat.divInt_eq_div]
      push_cast
      ring
    · apply npMax_mem
      have hlen := nullTrialVals_length calcTE shuffle k ca N t c
      intro hnil
      rw [hnil] at hlen
      simp at hlen
      omega
    · intro v hv
      exact le_npMax hv

/-- Witness for C3 on a 2 by 1 matrix, two trials, a reversing shuffle and a
calculator returning one half at every position. -/
theorem teCA_null_spec_witness :
    ((teCA_null (fun _ _ x => x.map fun _ => mkRat 1 2) (fun _ _ l => l.reverse) 1
        [[0], [1]] 1 2).1.length = [[0], [1]].length ∧
      (∀ r ∈ (teCA_null (fun _ _ x => x.map fun _ => mkRat 1 2) (fun _ _ l => l.reverse) 1
        [[0], [1]] 1 2).1, r.length = 1) ∧
      (teCA_null (fun _ _ x => x.map fun _ => mkRat 1 2) (fun _ _ l => l.reverse) 1
        [[0], [1]] 1 2).2.1.length = [[0], [1]].length ∧
      (∀ r ∈ (teCA_null (fun _ _ x => x.map fun _ => mkRat 1 2) (fun _ _ l => l.reverse) 1
        [[0], [1]] 1 2).2.1, r.length = 1) ∧
      (teCA_null (fun _ _ x => x.map fun _ => mkRat 1 2) (fun _ _ l => l.reverse) 1
        [[0], [1]] 1 2).2.2.length = [[0], [1]].length ∧
      (∀ r ∈ (teCA_null (fun _ _ x => x.map fun _ => mkRat 1 2) (fun _ _ l => l.reverse) 1
        [[0], [1]] 1 2).2.2, r.length = 1)) ∧
    (∀ t, t < [[0], [1]].length → ∀ c, c < 1 →
      (((teCA_null (fun _ _ x => x.map fun _ => mkRat 1 2) (fun _ _ l => l.reverse) 1
          [[0], [1]] 1 2).1.getD t []).getD c 0 =
        ((nullTrialVals (fun _ _ x => x.map fun _ => mkRat 1 2) (fun _ _ l => l.reverse) 1
          [[0], [1]] 2 t c).sum : ℚ) / 2) ∧
      ((((teCA_null (fun _ _ x => x.map fun _ => mkRat 1 2) (fun _ _ l => l.reverse) 1
          [[0], [1]] 1 2).2.1.getD t []).getD c 0) ^ 2 =
        ((((nullTrialVals (fun _ _ x => x.map fun _ => mkRat 1 2) (fun _ _ l => l.reverse) 1
          [[0], [1]] 2 t c).map (fun v =>
          ((v : ℚ) - ((nullTrialVals (fun _ _ x => x.map fun _ => mkRat 1 2)
            (fun _ _ l => l.reverse) 1 [[0], [1]] 2 t c).sum : ℚ) / 2) ^ 2)).sum / 2
          : ℚ) : ℝ)) ∧
      0 ≤ ((teCA_null (fun _ _ x => x.map fun _ => mkRat 1 2) (fun _ _ l => l.reverse) 1
        [[0], [1]] 1 2).2.1.getD t []).getD c 0 ∧
      ((teCA_null (fun _ _ x => x.map fun _ => mkRat 1 2) (fun _ _ l => l.reverse) 1
        [[0], [1]] 1 2).2.2.getD t []).getD c 0 ∈
        nullTrialVals (fun _ _ x => x.map fun _ => mkRat 1 2) (fun _ _ l => l.reverse) 1
          [[0], [1]] 2 t c ∧
      (∀ v ∈ nullTrialVals (fun _ _ x => x.map fun _ => mkRat 1 2) (fun _ _ l => l.reverse) 1
          [[0], [1]] 2 t c,
        v ≤ ((teCA_null (fun _ _ x => x.map fun _ => mkRat 1 2) (fun _ _ l => l.reverse) 1
          [[0], [1]] 1 2).2.2.getD t []).getD c 0)) :=
  teCA_null_spec (fun _ _ x => x.map fun _ => mkRat 1 2) (fun _ _ l => l.reverse) 1
    [[0], [1]] 1 2 (by decide)

/-- C6: every observation pair handed to the calculator by `teCA_null` has as
destination some unchanged column `c` of `ca` and as source the shuffle drawn
for that trial and column applied to that same column; since
`np.random.shuffle` permutes its argument, the source is a permutation of the
destination.  The shuffle acts on copies — the embedding passes the column by
value, so `ca` itself is left unmodified. -/
theorem teCA_null_sources (shuffle : Nat → Nat → List Int → List Int)
    (ca : List (List Int)) (n N : Nat)
    (hshuffle : ∀ i c l, (shuffle i c l).Perm l) :
    ∀ y x : List Int,
      (CalcEvent.addObservations y x ∈ teCA_nullTrace shuffle ca n N ∨
       CalcEvent.computeLocal y x ∈ teCA_nullTrace shuffle ca n N) →
      y.Perm x ∧ ∃ i, i < N ∧ ∃ c, c < n ∧ x = col ca c ∧ y = shuffle i c (col ca c) := by
  intro y x h
  have hmem : ∃ i, i < N ∧ ∃ c, c < n ∧ x = col ca c ∧ y = shuffle i c (col ca c) := by
    rcases h with h | h <;>
    · simp only [teCA_nullTrace, List.mem_flatMap, List.mem_range, List.mem_cons,
        List.not_mem_nil, or_false, nullY] at h
      obtain ⟨i, hi, c, hc, hcase⟩ := h
      rcases hcase with h1 | h1 | h1 <;> simp only [CalcEvent.addObservations.injEq,
        CalcEvent.computeLocal.injEq, reduceCtorEq] at h1
      exact ⟨i, hi, c, hc, h1.2, h1.1⟩
  obtain ⟨i, hi, c, hc, hx, hy⟩ := hmem
  subst hx
  subst hy
  exact ⟨hshuffle i c (col ca c), i, hi, c, hc, rfl, rfl⟩

/-- Witness for C6: the reversing shuffle on a 2 by 1 matrix at the concrete
observation event with source `[1, 0]` and destination `[0, 1]`. -/
theorem teCA_null_sources_witness :
    ([1, 0] : List Int).Perm [0, 1] ∧ ∃ i, i < 2 ∧ ∃ c, c < 1 ∧
      ([0, 1] : List Int) = col [[0], [1]] c ∧
      ([1, 0] : List Int) = (fun _ _ (l : List Int) => l.reverse) i c (col [[0], [1]] c) :=
  teCA_null_sources (fun _ _ l => l.reverse) [[0], [1]] 1 2
    (fun _ _ l => List.reverse_perm l) [1, 0] [0, 1] (Or.inl (by decide))

/-- C8: every value stored into the integer result arrays of `teCA`, `teCA_Box`
and `teCA_null` is the truncation toward zero (floor for nonnegative values,
ceiling for negative ones — the `dtype=int` cast) of the calculator's rational
per-position output, and `teCA_null`'s mean, standard deviation and max are
computed over these truncated integers rather than the raw calculator values. -/
theorem dtype_int_truncation_spec (calcTE : Nat → List Int → List Int → List ℚ)
    (shuffle : Nat → Nat → List Int → List Int) (k : Nat) (neighbor : String)
    (ca : List (List Int)) (n N : Nat)
    (hv : pyUpper neighbor = "L" ∨ pyUpper neighbor = "R") :
    (∀ q : ℚ, truncQ q = if 0 ≤ q then ⌊q⌋ else ⌈q⌉) ∧
    (∀ t, t < ca.length → ∀ c, c < n →
      ∃ M y, teCA calcTE k neighbor ca n = some M ∧
        teCAy (pyUpper neighbor) ca c = some y ∧
        (M.getD t []).getD c 0 = truncQ ((calcTE k y (col ca c)).getD t 0)) ∧
    (∀ t, t < ca.length → ∀ c, c < n → ∀ i, i < n →
      ∃ B y, teCA_Box calcTE k neighbor ca n = some B ∧
        teBoxY (pyUpper neighbor) ca c i = some y ∧
        ((B.getD t []).getD c []).getD i 0 = truncQ ((calcTE k y (col ca c)).getD t 0)) ∧
    (∀ t, t < ca.length → ∀ c, c < n →
      ((teCA_null calcTE shuffle k ca n N).1.getD t []).getD c 0 =
        npMean ((List.range N).map fun i =>
          truncQ ((calcTE k (shuffle i c (col ca c)) (col ca c)).getD t 0)) ∧
      ((teCA_null calcTE shuffle k ca n N).2.1.getD t []).getD c 0 =
        npStd ((List.range N).map fun i =>
          truncQ ((calcTE k (shuffle i c (col ca c)) (col ca c)).getD t 0)) ∧
      ((teCA_null calcTE shuffle k ca n N).2.2.getD t []).getD c 0 =
        npMax ((List.range N).map fun i =>
          truncQ ((calcTE k (shuffle i c (col ca c)) (col ca c)).getD t 0))) := by
  refine ⟨truncQ_eq_ite, ?_, ?_, ?_⟩
  · intro t ht c hc
    obtain ⟨y, hy⟩ : ∃ y, teCAy (pyUpper neighbor) ca c = some y := by
      rcases hv with h | h <;> rw [h, teCAy]
      · rw [if_pos rfl]
        exact ⟨_, rfl⟩
      · rw [if_neg (by decide), if_pos rfl]
        exact ⟨_, rfl⟩
    refine ⟨_, y, teCA_eq_some calcTE k neighbor ca n (by tauto), hy, ?_⟩
    rw [getD_matrix_entry _ _ _ ht hc, teCAcolumn, hy]
    simp only [Option.map_some', Option.getD_some]
    exact getD_map_truncQ _ _
  · intro t ht c hc i hi
    obtain ⟨y, hy⟩ : ∃ y, teBoxY (pyUpper neighbor) ca c i = some y := by
      rcases hv with h | h <;> rw [h, teBoxY]
      · rw [if_pos rfl]
        exact ⟨_, rfl⟩
      · rw [if_neg (by decide), if_pos rfl]
        exact ⟨_, rfl⟩
    refine ⟨_, y, teCA_Box_eq_some calcTE k neighbor ca n (by tauto), hy, ?_⟩
    rw [getD_map_range _ _ ht, getD_map_range _ _ hc, getD_map_range _ _ hi, hy]
    simp only [Option.map_some', Option.getD_some]
    exact getD_map_truncQ _ _
  · intro t ht c hc
    have h1 : (teCA_null calcTE shuffle k ca n N).1 = (List.range ca.length).map fun t =>
        (List.range n).map fun c => npMean (nullTrialVals calcTE shuffle k ca N t c) := rfl
    have h2 : (teCA_null calcTE shuffle k ca n N).2.1 = (List.range ca.length).map fun t =>
        (List.range n).map fun c => npStd (nullTrialVals calcTE shuffle k ca N t c) := rfl
    have h3 : (teCA_null calcTE shuffle k ca n N).2.2 = (List.range ca.length).map fun t =>
        (List.range n).map fun c => npMax (nullTrialVals calcTE shuffle k ca N t c) := rfl
    rw [h1, h2, h3, getD_matrix_entry _ _ _ ht hc, getD_matrix_entry _ _ _ ht hc,
      getD_matrix_entry _ _ _ ht hc, nullTrialVals_eq]
    exact ⟨rfl, rfl, rfl⟩

/-- Witness for C8 on a 2 by 1 matrix with neighbor "L", one trial, a constant
one-half calculator and the identity shuffle. -/
theorem dtype_int_truncation_spec_witness :
    (∀ q : ℚ, truncQ q = if 0 ≤ q then ⌊q⌋ else ⌈q⌉) ∧
    (∀ t, t < [[0], [1]].length → ∀ c, c < 1 →
      ∃ M y, teCA (fun _ _ x => x.map fun _ => mkRat 1 2) 1 "L" [[0], [1]] 1 = some M ∧
        teCAy (pyUpper "L") [[0], [1]] c = some y ∧
        (M.getD t []).getD c 0 = truncQ (((fun (_ : Nat) (_ x : List Int) =>
          x.map fun _ => mkRat 1 2) 1 y (col [[0], [1]] c)).getD t 0)) ∧
    (∀ t, t < [[0], [1]].length → ∀ c, c < 1 → ∀ i, i < 1 →
      ∃ B y, teCA_Box (fun _ _ x => x.map fun _ => mkRat 1 2) 1 "L" [[0], [1]] 1 = some B ∧
        teBoxY (pyUpper "L") [[0], [1]] c i = some y ∧
        ((B.getD t []).getD c []).getD i 0 = truncQ (((fun (_ : Nat) (_ x : List Int) =>
          x.map fun _ => mkRat 1 2) 1 y (col [[0], [1]] c)).getD t 0)) ∧
    (∀ t, t < [[0], [1]].length → ∀ c, c < 1 →
      ((teCA_null (fun _ _ x => x.map fun _ => mkRat 1 2) (fun _ _ l => l) 1
          [[0], [1]] 1 1).1.getD t []).getD c 0 =
        npMean ((List.range 1).map fun i =>
          truncQ (((fun (_ : Nat) (_ x : List Int) => x.map fun _ => mkRat 1 2) 1
            ((fun _ _ (l : List Int) => l) i c (col [[0], [1]] c))
            (col [[0], [1]] c)).getD t 0)) ∧
      ((teCA_null (fun _ _ x => x.map fun _ => mkRat 1 2) (fun _ _ l => l) 1
          [[0], [1]] 1 1).2.1.getD t []).getD c 0 =
        npStd ((List.range 1).map fun i =>
          truncQ (((fun (_ : Nat) (_ x : List Int) => x.map fun _ => mkRat 1 2) 1
            ((fun _ _ (l : List Int) => l) i c (col [[0], [1]] c))
            (col [[0], [1]] c)).getD t 0)) ∧
      ((teCA_null (fun _ _ x => x.map fun _ => mkRat 1 2) (fun _ _ l => l) 1
          [[0], [1]] 1 1).2.2.getD t []).getD c 0 =
        npMax ((List.range 1).map fun i =>
          truncQ (((fun (_ : Nat) (_ x : List Int) => x.map fun _ => mkRat 1 2) 1
            ((fun _ _ (l : List Int) => l) i c (col [[0], [1]] c))
            (col [[0], [1]] c)).getD t 0))) :=
  dtype_int_truncation_spec (fun _ _ x => x.map fun _ => mkRat 1 2) (fun _ _ l => l) 1 "L"
    [[0], [1]] 1 1 (by decide)

/-! Lemmas for `greatestInfluence`. -/

/-- Incrementing preserves the array length. -/
theorem bumpAt_length (ts : List Nat) (j : Nat) : (bumpAt ts j).length = ts.length := by
  rw [bumpAt, List.length_set]

/-- Reading the incremented slot. -/
theorem bumpAt_getD_self (ts : List Nat) {j : Nat} (h : j < ts.length) :
    (bumpAt ts j).getD j 0 = ts.getD j 0 + 1 := by
  rw [bumpAt, List.getD_eq_getElem _ _ (by simpa using h), List.getElem_set_self,
    List.getD_eq_getElem _ _ h]

/-- Reading any other slot. -/
theorem bumpAt_getD_ne (ts : List Nat) {j s : Nat} (h : j ≠ s) :
    (bumpAt ts j).getD s 0 = ts.getD s 0 := by
  rcases lt_or_ge s ts.length with hs | hs
  · rw [bumpAt, List.getD_eq_getElem _ _ (by simpa using hs), List.getElem_set_ne h,
      List.getD_eq_getElem _ _ hs]
  · rw [bumpAt, List.getD_eq_default _ _ (by simpa using hs), List.getD_eq_default _ _ hs]

/-- An in-range increment raises the total count by one. -/
theorem bumpAt_sum (ts : List Nat) {j : Nat} (h : j < ts.length) :
    (bumpAt ts j).sum = ts.sum + 1 := by
  induction ts generalizing j with
  | nil => simp at h
  | cons a ts ih =>
    cases j with
    | zero =>
      simp only [bumpAt, List.set_cons_zero, List.getD_cons_zero, List.sum_cons]
      omega
    | succ j =>
      have hstep : bumpAt (a :: ts) (j + 1) = a :: bumpAt ts j := rfl
      rw [hstep, List.sum_cons, List.sum_cons, ih (by simpa using h)]
      omega

/-- Folded increments preserve the array length. -/
theorem foldl_bumpAt_length (tgt : Nat → Nat) (I : List Nat) :
    ∀ init : List Nat,
      (I.foldl (fun ts i => bumpAt ts (tgt i)) init).length = init.length := by
  induction I with
  | nil => intro init; rfl
  | cons a I ih =>
    intro init
    rw [List.foldl_cons, ih, bumpAt_length]

/-- Folding in-range increments adds one per fold step to the total count. -/
theorem foldl_bumpAt_sum (tgt : Nat → Nat) (I : List Nat) :
    ∀ init : List Nat, (∀ i ∈ I, tgt i < init.length) →
      (I.foldl (fun ts i => bumpAt ts (tgt i)) init).sum = init.sum + I.length := by
  induction I with
  | nil => intro init _; simp
  | cons a I ih =>
    intro init hI
    rw [List.foldl_cons]
    have hI2 : ∀ i ∈ I, tgt i < (bumpAt init (tgt a)).length := by
      intro i hi
      rw [bumpAt_length]
      exact hI i (by simp [hi])
    rw [ih (bumpAt init (tgt a)) hI2, bumpAt_sum init (hI a (by simp)), List.length_cons]
    omega

/-- Folding in-range increments counts, per slot, the fold steps aimed at it. -/
theorem foldl_bumpAt_getD (tgt : Nat → Nat) (s : Nat) (I : List Nat) :
    ∀ init : List Nat, (∀ i ∈ I, tgt i < init.length) →
      (I.foldl (fun ts i => bumpAt ts (tgt i)) init).getD s 0 =
        init.getD s 0 + (I.filter (fun i => tgt i = s)).length := by
  induction I with
  | nil => intro init _; simp
  | cons a I ih =>
    intro init hI
    rw [List.foldl_cons]
    have hI2 : ∀ i ∈ I, tgt i < (bumpAt init (tgt a)).length := by
      intro i hi
      rw [bumpAt_length]
      exact hI i (by simp [hi])
    rw [ih (bumpAt init (tgt a)) hI2]
    by_cases h : tgt a = s
    · rw [List.filter_cons_of_pos (by simpa using h)]
      subst h
      rw [bumpAt_getD_self init (hI a (by simp)), List.length_cons]
      omega
    · rw [List.filter_cons_of_neg (by simpa using h), bumpAt_getD_ne init h]

/-- Wrap-around indexing into `np.arange(0,226)` lands in range and returns the
wrapped index itself. -/
theorem npIndexWrap_range_lt (k : Int) : npIndexWrap (List.range 226) k < 226 ∧
    npIndexWrap (List.range 226) k = (k.emod 226).toNat := by
  have h1 : (0 : Int) ≤ k.emod ((226 : Nat) : Int) := Int.emod_nonneg _ (by norm_num)
  have h2 : k.emod ((226 : Nat) : Int) < ((226 : Nat) : Int) :=
    Int.emod_lt_of_pos _ (by norm_num)
  have h3 : (k.emod ((226 : Nat) : Int)).toNat < 226 := by omega
  constructor
  · rw [npIndexWrap, List.length_range, getD_range h3]
    exact h3
  · rw [npIndexWrap, List.length_range, getD_range h3]
    norm_num

/-- Every increment of `greatestInfluence` targets one of the 226 slots. -/
theorem influenceTarget_lt (teBox : List (List (List ℚ))) (i : Nat) :
    influenceTarget teBox i < 226 := by
  simp only [influenceTarget]
  exact (npIndexWrap_range_lt _).1

/-- A nonempty rational list has a maximal element. -/
theorem exists_max_mem {l : List ℚ} (hl : l ≠ []) : ∃ v ∈ l, ∀ w ∈ l, w ≤ v := by
  induction l with
  | nil => exact absurd rfl hl
  | cons a l ih =>
    rcases eq_or_ne l [] with h | h
    · subst h
      exact ⟨a, by simp, by simp⟩
    · obtain ⟨v, hv, hmax⟩ := ih h
      rcases le_total v a with hh | hh
      · refine ⟨a, List.mem_cons_self a l, ?_⟩
        intro w hw
        rcases List.mem_cons.mp hw with h1 | h1
        · exact le_of_eq h1
        · exact le_trans (hmax w h1) hh
      · refine ⟨v, List.mem_cons_of_mem _ hv, ?_⟩
        intro w hw
        rcases List.mem_cons.mp hw with h1 | h1
        · rw [h1]
          exact hh
        · exact hmax w h1

/-- The index `np.argmax` of a nonempty vector is an in-range index. -/
theorem npArgmax_lt_length {l : List ℚ} (hl : l ≠ []) : npArgmax l < l.length := by
  rw [npArgmax]
  apply List.findIdx_lt_length_of_exists
  obtain ⟨v, hv, hmax⟩ := exists_max_mem hl
  refine ⟨v, hv, ?_⟩
  rw [List.all_eq_true]
  intro w hw
  exact decide_eq_true (hmax w hw)

/-- The vector attains its maximum at `np.argmax`. -/
theorem npArgmax_spec {l : List ℚ} (hl : l ≠ []) :
    ∀ w ∈ l, w ≤ l.getD (npArgmax l) 0 := by
  intro w hw
  have hlt : npArgmax l < l.length := npArgmax_lt_length hl
  rw [List.getD_eq_getElem _ _ hlt]
  have hp := @List.findIdx_getElem _ (fun v => l.all (fun u => decide (u ≤ v))) l
    (by rw [npArgmax] at hlt; exact hlt)
  rw [List.all_eq_true] at hp
  have h2 := hp w hw
  rw [decide_eq_true_eq] at h2
  exact h2

/-- C10: on a box with 226 destination rows, each row increments exactly one
in-range counter, so the returned towns array sums to exactly 226. -/
theorem greatestInfluence_total (teBox : List (List (List ℚ)))
    (hlen : teBox.length = 226) :
    (greatestInfluence teBox).2.sum = 226 := by
  have h : (greatestInfluence teBox).2 = (List.range teBox.length).foldl
      (fun ts i => bumpAt ts (influenceTarget teBox i))
      (List.replicate teBox.length 0) := rfl
  have hI : ∀ i ∈ List.range teBox.length,
      influenceTarget teBox i < (List.replicate teBox.length (0 : Nat)).length := by
    intro i _
    rw [List.length_replicate, hlen]
    exact influenceTarget_lt teBox i
  rw [h, foldl_bumpAt_sum _ _ _ hI, List.sum_replicate, List.length_range, hlen]
  simp

/-- Witness for C10 on a box of 226 empty planes. -/
theorem greatestInfluence_total_witness :
    (greatestInfluence (List.replicate 226 ([] : List (List ℚ)))).2.sum = 226 :=
  greatestInfluence_total _ (List.length_replicate _ _)

/-- C4: on a 226 by 226 by 226 box, `greatestInfluence` returns the fixed index
array `0..225` together with a 226-slot count array that counts, per source
town, the destination rows `i` whose plane `teBox[i,:,:]` attains its (first)
flat maximum at a position with second coordinate `j` such that the source town
is `(i - j) mod 226` — exactly the counter at that town is incremented. -/
theorem greatestInfluence_spec (teBox : List (List (List ℚ)))
    (hlen : teBox.length = 226)
    (hplanes : ∀ p ∈ teBox, p.length = 226 ∧ ∀ r ∈ p, r.length = 226) :
    (greatestInfluence teBox).1 = List.range 226 ∧
    (greatestInfluence teBox).2.length = 226 ∧
    (∀ i, i < 226 → ∀ w ∈ (teBox.getD i []).flatten,
      w ≤ (teBox.getD i []).flatten.getD (npArgmax ((teBox.getD i []).flatten)) 0) ∧
    (∀ s, s < 226 → (greatestInfluence teBox).2.getD s 0 =
      ((List.range 226).filter (fun (i : Nat) =>
        (((i : Int) - ((npArgmax ((teBox.getD i []).flatten) % 226 : Nat) : Int)).emod
          226).toNat = s)).length) := by
  have hplane : ∀ i, i < 226 → (teBox.getD i []).length = 226 ∧
      ∀ r ∈ teBox.getD i [], r.length = 226 := by
    intro i hi
    have hmem : teBox.getD i [] ∈ teBox := by
      rw [List.getD_eq_getElem _ _ (by omega)]
      exact List.getElem_mem _
    exact hplanes _ hmem
  have hne : ∀ i, i < 226 → teBox.getD i [] ≠ [] := by
    intro i hi h
    have hp226 := (hplane i hi).1
    rw [h] at hp226
    simp at hp226
  have hflat_ne : ∀ i, i < 226 → (teBox.getD i []).flatten ≠ [] := by
    intro i hi
    obtain ⟨r0, rest, hr⟩ := List.exists_cons_of_ne_nil (hne i hi)
    have hr0len : r0.length = 226 :=
      (hplane i hi).2 r0 (by rw [hr]; exact List.mem_cons_self _ _)
    have hr0ne : r0 ≠ [] := by
      intro h
      rw [h] at hr0len
      simp at hr0len
    obtain ⟨v, vrest, hv⟩ := List.exists_cons_of_ne_nil hr0ne
    have hvmem : v ∈ (teBox.getD i []).flatten :=
      List.mem_flatten.mpr ⟨r0, by rw [hr]; simp, by rw [hv]; simp⟩
    exact List.ne_nil_of_mem hvmem
  have hcols : ∀ i, i < 226 → ((teBox.getD i []).headD []).length = 226 := by
    intro i hi
    obtain ⟨r0, rest, hr⟩ := List.exists_cons_of_ne_nil (hne i hi)
    rw [hr, List.headD_cons]
    exact (hplane i hi).2 r0 (by rw [hr]; exact List.mem_cons_self _ _)
  have htgt : ∀ i, i < 226 → influenceTarget teBox i =
      (((i : Int) - ((npArgmax ((teBox.getD i []).flatten) % 226 : Nat) : Int)).emod
        226).toNat := by
    intro i hi
    simp only [influenceTarget, npUnravel]
    rw [hcols i hi]
    exact (npIndexWrap_range_lt _).2
  refine ⟨rfl, ?_, ?_, ?_⟩
  · have h : (greatestInfluence teBox).2 = (List.range teBox.length).foldl
        (fun ts i => bumpAt ts (influenceTarget teBox i))
        (List.replicate teBox.length 0) := rfl
    rw [h, foldl_bumpAt_length, List.length_replicate, hlen]
  · intro i hi
    exact npArgmax_spec (hflat_ne i hi)
  · intro s hs
    have h : (greatestInfluence teBox).2 = (List.range teBox.length).foldl
        (fun ts i => bumpAt ts (influenceTarget teBox i))
        (List.replicate teBox.length 0) := rfl
    have hI : ∀ i ∈ List.range teBox.length,
        influenceTarget teBox i < (List.replicate teBox.length (0 : Nat)).length := by
      intro i _
      rw [List.length_replicate, hlen]
      exact influenceTarget_lt teBox i
    rw [h, foldl_bumpAt_getD _ _ _ _ hI, hlen]
    have hrep : (List.replicate 226 (0 : Nat)).getD s 0 = 0 := by
      rw [List.getD_eq_getElem _ _ (by rw [List.length_replicate]; exact hs),
        List.getElem_replicate]
    rw [hrep, Nat.zero_add]
    congr 1
    apply List.filter_congr
    intro i hi
    rw [List.mem_range] at hi
    rw [htgt i hi]

/-- Witness for C4 on the all-zero 226 by 226 by 226 box. -/
theorem greatestInfluence_spec_witness :
    (greatestInfluence (List.replicate 226 (List.replicate 226
      (List.replicate 226 (0 : ℚ))))).1 = List.range 226 ∧
    (greatestInfluence (List.replicate 226 (List.replicate 226
      (List.replicate 226 (0 : ℚ))))).2.length = 226 ∧
    (∀ i, i < 226 → ∀ w ∈ ((List.replicate 226 (List.replicate 226
        (List.replicate 226 (0 : ℚ)))).getD i []).flatten,
      w ≤ ((List.replicate 226 (List.replicate 226
        (List.replicate 226 (0 : ℚ)))).getD i []).flatten.getD
        (npArgmax (((List.replicate 226 (List.replicate 226
          (List.replicate 226 (0 : ℚ)))).getD i []).flatten)) 0) ∧
    (∀ s, s < 226 → (greatestInfluence (List.replicate 226 (List.replicate 226
        (List.replicate 226 (0 : ℚ))))).2.getD s 0 =
      ((List.range 226).filter (fun (i : Nat) =>
        (((i : Int) - ((npArgmax (((List.replicate 226 (List.replicate 226
          (List.replicate 226 (0 : ℚ)))).getD i []).flatten) % 226 : Nat) : Int)).emod
          226).toNat = s)).length) :=
  greatestInfluence_spec (List.replicate 226 (List.replicate 226
      (List.replicate 226 (0 : ℚ)))) (List.length_replicate _ _)
    (by
      intro p hp
      rw [List.eq_of_mem_replicate hp]
      refine ⟨List.length_replicate _ _, ?_⟩
      intro r hr
      rw [List.eq_of_mem_replicate hr]
      exact List.length_replicate _ _)
